import Mathlib

/-!
# AVL tree of `avltree/avl.c`: shallow embedding and verified properties

Pointers to user data (`void *`) are handles, modelled as natural numbers with
`NULL = 0`.  A node pointer `avlnode_t *` is a value of the inductive type
`avlnode`, `nil` standing for the null pointer.  Functions that rewrite a slot
`avlnode_t **ptr` take the subtree stored in the slot and return the subtree
stored there afterwards.  `int` results are integers; no arithmetic of this
file can overflow for trees that fit in memory.  Allocation is assumed to
succeed.  The release callback `rel` acts on user memory only and has no
effect on the node graph, so it is not part of the tree state; for
`avltree_delete` the keys it is called on are recorded as a list.
-/

namespace Avl

/-- The null handle. -/
abbrev NULL : Nat := 0

/-- The `struct avlnode_s`: key, value, left, right, cached height. -/
inductive avlnode where
  | nil : avlnode
  | node (key : Nat) (value : Nat) (left : avlnode) (right : avlnode) (height : Int) : avlnode
  deriving DecidableEq, Repr

open avlnode

/-- The `struct avltree_s` without its release callback. -/
structure avltree where
  root : avlnode
  cmp : Nat → Nat → Int
  dup : Nat → Nat
  size : Nat

/-- The default comparator: the 64-bit difference of the handles, converted to
a 32-bit signed `int`. -/
def def_cmp (p1 p2 : Nat) : Int :=
  let d : Nat := (p1 % 2 ^ 64 + 2 ^ 64 - p2 % 2 ^ 64) % 2 ^ 64
  let w : Nat := d % 2 ^ 32
  if w < 2 ^ 31 then (w : Int) else (w : Int) - 2 ^ 32

/-- The default duplication: the handle itself. -/
def def_dup (p : Nat) : Nat := p

/-- The `avltree_new`: an absent callback (`none`, the null function pointer)
is replaced by its default. -/
def avltree_new (cmp : Option (Nat → Nat → Int)) (dup : Option (Nat → Nat)) : avltree :=
  { root := nil
    cmp := match cmp with
      | some f => f
      | none => def_cmp
    dup := match dup with
      | some f => f
      | none => def_dup
    size := 0 }

/-- The `avlnode_height`: `-1` for the null pointer, else the cached height. -/
def avlnode_height : avlnode → Int
  | nil => -1
  | node _ _ _ _ h => h

/-- The `avlnode_update_height`.  The source only calls it on a non-null
pointer, with one exception: in `_avltree_remove` after a leaf was unlinked and
freed, where the write goes to the freed node and the slot stays null; that
call is the `nil` case here. -/
def avlnode_update_height : avlnode → avlnode
  | nil => nil
  | node k v l r _ =>
    let hleft := avlnode_height l
    let hright := avlnode_height r
    if hleft > hright then node k v l r (hleft + 1) else node k v l r (hright + 1)

/-- The height a rotation stores in the demoted node: two less, not below 0. -/
def demote (h : Int) : Int :=
  if h - 2 < 0 then 0 else h - 2

/-- The `avlnode_lrotation`. -/
def avlnode_lrotation : avlnode → avlnode
  | nil => nil
  | node k v l nil h => node k v l nil h
  | node k v l (node bk bv bl br bh) h => node bk bv (node k v l bl (demote h)) br bh

/-- The `avlnode_rrotation`. -/
def avlnode_rrotation : avlnode → avlnode
  | nil => nil
  | node k v nil r h => node k v nil r h
  | node k v (node bk bv bl br bh) r h => node bk bv bl (node k v br r (demote h)) bh

/-- The `avlnode_rotate`.  In the first branch the source reads `left->left`
without a null test; `hleft > hright + 1` makes `left` non-null as soon as the
cached height of the right child is at least `-1` (`rotate_child_nonnull`,
which applies to every tree built by the public calls, `heightsNonneg_run`),
and the model leaves the node alone otherwise (likewise for `right`). -/
def avlnode_rotate : avlnode → avlnode
  | nil => nil
  | node k v l r h =>
    if avlnode_height l > avlnode_height r + 1 then
      match l with
      | nil => node k v l r h
      | node _ _ ll lr _ =>
        if avlnode_height lr > avlnode_height ll + 1 then
          avlnode_rrotation (node k v (avlnode_lrotation l) r h)
        else
          avlnode_rrotation (node k v l r h)
    else if avlnode_height r > avlnode_height l + 1 then
      match r with
      | nil => node k v l r h
      | node _ _ rl rr _ =>
        if avlnode_height rr > avlnode_height rl + 1 then
          avlnode_lrotation (node k v l (avlnode_rrotation r) h)
        else
          avlnode_lrotation (node k v l r h)
    else node k v l r h

/-- The `avlnode_remove_min`: the unlinked node (its `right` reset to null)
and the subtree left in the slot. -/
def avlnode_remove_min : avlnode → avlnode × avlnode
  | nil => (nil, nil)
  | node k v nil r h => (node k v nil nil h, r)
  | node k v (node lk lv ll lr lh) r h =>
    let res := avlnode_remove_min (node lk lv ll lr lh)
    (res.1, avlnode_rotate (avlnode_update_height (node k v res.2 r h)))

/-- The `_avltree_insert`: the result flag, the subtree left in the slot and
the value written to `*old_out`. -/
def _avltree_insert (cmp : Nat → Nat → Int) (dup : Nat → Nat) :
    avlnode → Nat → Nat → Int → Int × avlnode × Nat
  | nil, key, value, _ => (0, node (dup key) value nil nil 0, NULL)
  | node k v l r h, key, value, replace =>
    if cmp k key ≠ 0 then
      if cmp k key < 0 then
        let res := _avltree_insert cmp dup l key value replace
        if res.2.2 = NULL then
          (res.1, avlnode_rotate (avlnode_update_height (node k v res.2.1 r h)), res.2.2)
        else (res.1, node k v res.2.1 r h, res.2.2)
      else
        let res := _avltree_insert cmp dup r key value replace
        if res.2.2 = NULL then
          (res.1, avlnode_rotate (avlnode_update_height (node k v l res.2.1 h)), res.2.2)
        else (res.1, node k v l res.2.1 h, res.2.2)
    else if replace ≠ 0 then (1, node k value l r h, v)
    else (0, node k v l r h, v)

/-- The node that `_avltree_remove` leaves in the slot of a matched node,
before the final height update: the slot is cleared for a leaf, takes the
contents of the only child, or keeps the node with the key and value of the
minimum of the right subtree.  The source reads `temp->key` without a null
test; `avlnode_remove_min` returns a node for a non-empty right subtree
(`remove_min_returns_node`), and the model keeps key and value otherwise. -/
def unlink : avlnode → avlnode
  | nil => nil
  | node _ _ nil nil _ => nil
  | node _ _ (node lk lv ll lr lh) nil _ => node lk lv ll lr lh
  | node _ _ nil (node rk rv rl rr rh) _ => node rk rv rl rr rh
  | node k v (node lk lv ll lr lh) (node rk rv rl rr rh) h =>
    match avlnode_remove_min (node rk rv rl rr rh) with
    | (node tk tv _ _ _, r') => node tk tv (node lk lv ll lr lh) r' h
    | (nil, r') => node k v (node lk lv ll lr lh) r' h

/-- The final step of `_avltree_remove`: height update and rotation when
`*old_out` is not null. -/
def fixup (old : Nat) (n : avlnode) : avlnode :=
  if old ≠ NULL then avlnode_rotate (avlnode_update_height n) else n

/-- The `_avltree_remove`: the result flag, the subtree left in the slot and
the contents of `*old_out`, whose contents on entry are `old`. -/
def _avltree_remove (cmp : Nat → Nat → Int) :
    avlnode → Nat → Nat → Int × avlnode × Nat
  | nil, _, old => (0, nil, old)
  | node k v l r h, key, old =>
    if cmp k key ≠ 0 then
      if cmp k key < 0 then
        let res := _avltree_remove cmp l key old
        (res.1, fixup res.2.2 (node k v res.2.1 r h), res.2.2)
      else
        let res := _avltree_remove cmp r key old
        (res.1, fixup res.2.2 (node k v l res.2.1 h), res.2.2)
    else (1, fixup v (unlink (node k v l r h)), v)

/-- The `_avltree_find`: the node found, `nil` for the null pointer. -/
def _avltree_find (cmp : Nat → Nat → Int) : avlnode → Nat → avlnode
  | nil, _ => nil
  | node k v l r h, key =>
    if cmp k key < 0 then _avltree_find cmp l key
    else if cmp k key > 1 then _avltree_find cmp r key
    else node k v l r h

/-- The `avltree_find`. -/
def avltree_find (tree : avltree) (key : Nat) : Nat :=
  match _avltree_find tree.cmp tree.root key with
  | nil => NULL
  | node _ v _ _ _ => v

/-- The `avltree_haskey`. -/
def avltree_haskey (tree : avltree) (key : Nat) : Int :=
  match _avltree_find tree.cmp tree.root key with
  | nil => 0
  | node _ _ _ _ _ => 1

/-- The `avltree_insert`: the result, the tree afterwards and the value
stored through `old_out` when the caller passes one. -/
def avltree_insert (tree : avltree) (key data : Nat) (overwrite : Int) :
    Int × avltree × Nat :=
  let res := _avltree_insert tree.cmp tree.dup tree.root key data overwrite
  (res.1, { tree with root := res.2.1 }, res.2.2)

/-- The `avltree_erase`: the result, the tree afterwards and the value stored
through `old_out` when the caller passes one. -/
def avltree_erase (tree : avltree) (key : Nat) : Int × avltree × Nat :=
  let res := _avltree_remove tree.cmp tree.root key NULL
  (res.1, { tree with root := res.2.1 }, res.2.2)

/-- The `avltree_size`. -/
def avltree_size (tree : avltree) : Nat := tree.size

/-! ## Specification vocabulary -/

/-- In-order traversal (left subtree, node, right subtree): the stored
(key, value) entries. -/
def entries : avlnode → List (Nat × Nat)
  | nil => []
  | node k v l r _ => entries l ++ (k, v) :: entries r

/-- Keys of the in-order traversal. -/
def keys (t : avlnode) : List Nat := (entries t).map Prod.fst

/-- Number of nodes. -/
def count : avlnode → Nat
  | nil => 0
  | node _ _ l r _ => count l + 1 + count r

/-- Structural height: `-1` for the empty subtree, `0` for a leaf. -/
def realHeight : avlnode → Int
  | nil => -1
  | node _ _ l r _ => 1 + max (realHeight l) (realHeight r)

/-- AVL balance at every node, on structural heights. -/
def balanced : avlnode → Bool
  | nil => true
  | node _ _ l r _ =>
    decide (realHeight l - realHeight r ≤ 1) && decide (realHeight r - realHeight l ≤ 1)
      && balanced l && balanced r

/-- Every cached height is the structural height of its subtree. -/
def heightsCorrect : avlnode → Bool
  | nil => true
  | node k v l r h =>
    decide (h = realHeight (node k v l r h)) && heightsCorrect l && heightsCorrect r

/-- Every cached height is at least 0. -/
def heightsNonneg : avlnode → Prop
  | nil => True
  | node _ _ l r h => 0 ≤ h ∧ heightsNonneg l ∧ heightsNonneg r

/-- No stored value is the null handle. -/
def valuesNonNull (t : avlnode) : Bool :=
  (entries t).all (fun e => decide (e.2 ≠ NULL))

/-- Search order in the direction the code descends: a key goes to the left
subtree of a node when `cmp node.key key < 0` and to the right one when
`cmp node.key key > 0`. -/
def searchOrder (cmp : Nat → Nat → Int) : avlnode → Prop
  | nil => True
  | node k _ l r _ =>
    (∀ x ∈ keys l, cmp k x < 0) ∧ (∀ x ∈ keys r, 0 < cmp k x)
      ∧ searchOrder cmp l ∧ searchOrder cmp r

/-- A consistent comparator: a strict total order up to the keys it
declares equal. -/
structure Consistent (cmp : Nat → Nat → Int) : Prop where
  refl : ∀ a, cmp a a = 0
  antisymm : ∀ a b, cmp a b < 0 ↔ 0 < cmp b a
  trans : ∀ a b c, cmp a b < 0 → cmp b c < 0 → cmp a c < 0
  eq_left : ∀ a b c, cmp a b = 0 → cmp b c < 0 → cmp a c < 0
  eq_right : ∀ a b c, cmp a b < 0 → cmp b c = 0 → cmp a c < 0

/-- A comparator on handles that orders them as numbers and answers
`-1`, `0` or `1`. -/
def cmp3 (a b : Nat) : Int :=
  if a < b then -1 else if b < a then 1 else 0

/-- A call of the public interface that changes the tree. -/
inductive Op where
  | insert (key data : Nat) (overwrite : Int) : Op
  | erase (key : Nat) : Op

/-- The tree after one call. -/
def applyOp (t : avltree) : Op → avltree
  | Op.insert key data overwrite => (avltree_insert t key data overwrite).2.1
  | Op.erase key => (avltree_erase t key).2.1

/-- The tree after a sequence of calls. -/
def run (t : avltree) (ops : List Op) : avltree := ops.foldl applyOp t

/-- The descent of `_avltree_find` for `key` from a subtree to the nodes it
visits: it moves to the left child when the comparison is negative and to the
right child when it is greater than 1. -/
inductive Reaches (cmp : Nat → Nat → Int) (key : Nat) : avlnode → avlnode → Prop where
  | here (t : avlnode) : Reaches cmp key t t
  | left (k v : Nat) (l r : avlnode) (h : Int) (n : avlnode) :
      cmp k key < 0 → Reaches cmp key l n → Reaches cmp key (node k v l r h) n
  | right (k v : Nat) (l r : avlnode) (h : Int) (n : avlnode) :
      ¬ cmp k key < 0 → cmp k key > 1 → Reaches cmp key r n → Reaches cmp key (node k v l r h) n

/-- Every cached height is one more than the larger cached height of the two
children (`avlnode_height`, `-1` for an empty subtree). -/
def cachedHeightsLocal : avlnode → Bool
  | nil => true
  | node _ _ l r h =>
    decide (h = 1 + max (avlnode_height l) (avlnode_height r))
      && cachedHeightsLocal l && cachedHeightsLocal r

/-- Shape and cached heights of a tree: the tree with every key and value
erased. -/
def skeleton : avlnode → avlnode
  | nil => nil
  | node _ _ l r h => node 0 0 (skeleton l) (skeleton r) h

/-- A comparator on handles that orders them as numbers and answers
`-2`, `0` or `2`. -/
def cmp2 (a b : Nat) : Int :=
  if a < b then -2 else if b < a then 2 else 0

/-- Search order is decidable. -/
instance decSearchOrder (cmp : Nat → Nat → Int) :
    (t : avlnode) → Decidable (searchOrder cmp t)
  | nil => isTrue trivial
  | node k _ l r _ =>
    have := decSearchOrder cmp l
    have := decSearchOrder cmp r
    inferInstanceAs (Decidable ((∀ x ∈ keys l, cmp k x < 0) ∧ (∀ x ∈ keys r, 0 < cmp k x)
      ∧ searchOrder cmp l ∧ searchOrder cmp r))

/-! ## The comparator -/

theorem Consistent.symm_eq {cmp : Nat → Nat → Int} (hc : Consistent cmp) {a b : Nat}
    (h : cmp a b = 0) : cmp b a = 0 := by
  have h1 := hc.antisymm a b
  have h2 := hc.antisymm b a
  omega

theorem Consistent.gt_trans {cmp : Nat → Nat → Int} (hc : Consistent cmp) {a b c : Nat}
    (h1 : 0 < cmp a b) (h2 : 0 < cmp b c) : 0 < cmp a c :=
  (hc.antisymm c a).1 (hc.trans c b a ((hc.antisymm c b).2 h2) ((hc.antisymm b a).2 h1))

theorem cmp3_consistent : Consistent cmp3 where
  refl := by intro a; simp [cmp3]
  antisymm := by
    intro a b
    unfold cmp3
    split_ifs <;> omega
  trans := by
    intro a b c
    unfold cmp3
    split_ifs <;> omega
  eq_left := by
    intro a b c
    unfold cmp3
    split_ifs <;> omega
  eq_right := by
    intro a b c
    unfold cmp3
    split_ifs <;> omega

/-! ## Rotations and height updates keep the in-order traversal -/

@[simp] theorem entries_nil : entries nil = [] := rfl

@[simp] theorem entries_node (k v : Nat) (l r : avlnode) (h : Int) :
    entries (node k v l r h) = entries l ++ (k, v) :: entries r := rfl

@[simp] theorem keys_nil : keys nil = [] := rfl

@[simp] theorem keys_node (k v : Nat) (l r : avlnode) (h : Int) :
    keys (node k v l r h) = keys l ++ k :: keys r := by
  simp [keys]

@[simp] theorem entries_update_height (t : avlnode) :
    entries (avlnode_update_height t) = entries t := by
  cases t with
  | nil => rfl
  | node k v l r h =>
    simp only [avlnode_update_height]
    split_ifs <;> rfl

@[simp] theorem entries_lrotation (t : avlnode) : entries (avlnode_lrotation t) = entries t := by
  match t with
  | nil => rfl
  | node k v l nil h => rfl
  | node k v l (node bk bv bl br bh) h => simp [avlnode_lrotation]

@[simp] theorem entries_rrotation (t : avlnode) : entries (avlnode_rrotation t) = entries t := by
  match t with
  | nil => rfl
  | node k v nil r h => rfl
  | node k v (node bk bv bl br bh) r h => simp [avlnode_rrotation]

@[simp] theorem entries_rotate (t : avlnode) : entries (avlnode_rotate t) = entries t := by
  cases t with
  | nil => rfl
  | node k v l r h =>
    simp only [avlnode_rotate]
    split_ifs with h1 h2
    · cases l with
      | nil => rfl
      | node lk lv ll lr lh =>
        simp only
        split_ifs <;> simp
    · cases r with
      | nil => rfl
      | node rk rv rl rr rh =>
        simp only
        split_ifs <;> simp
    · rfl

@[simp] theorem entries_fixup (old : Nat) (n : avlnode) : entries (fixup old n) = entries n := by
  unfold fixup
  split_ifs <;> simp

theorem remove_min_spec (t : avlnode) (ht : t ≠ nil) :
    ∃ k v h, (avlnode_remove_min t).1 = node k v nil nil h
      ∧ entries t = (k, v) :: entries (avlnode_remove_min t).2 := by
  induction t with
  | nil => exact absurd rfl ht
  | node k v l r h ihl _ =>
    cases l with
    | nil => exact ⟨k, v, h, rfl, by simp [avlnode_remove_min]⟩
    | node lk lv ll lr lh =>
      obtain ⟨k', v', h', e1, e2⟩ := ihl (by simp)
      refine ⟨k', v', h', ?_, ?_⟩
      · simpa [avlnode_remove_min] using e1
      · simp only [avlnode_remove_min, entries_rotate, entries_update_height, entries_node]
        simp only [entries_node] at e2
        rw [e2]
        simp

theorem entries_unlink (k v : Nat) (l r : avlnode) (h : Int) :
    entries (unlink (node k v l r h)) = entries l ++ entries r := by
  cases l with
  | nil =>
    cases r with
    | nil => rfl
    | node rk rv rl rr rh => simp [unlink]
  | node lk lv ll lr lh =>
    cases r with
    | nil => simp [unlink]
    | node rk rv rl rr rh =>
      obtain ⟨k', v', h', e1, e2⟩ := remove_min_spec (node rk rv rl rr rh) (by simp)
      cases hp : avlnode_remove_min (node rk rv rl rr rh) with
      | mk p1 p2 =>
        rw [hp] at e1 e2
        simp only at e1 e2
        subst e1
        simp only [unlink, hp]
        rw [e2]
        simp

/-! ## The reads of `avlnode_rotate` and `_avltree_remove` hit no null pointer

Every cached height of a tree built by the public calls is at least 0, so a
child whose cached height exceeds its sibling's by more than one is not null,
and `avlnode_remove_min` on a non-empty subtree returns a node. -/

theorem height_ge_of_nonneg (t : avlnode) (h : heightsNonneg t) : -1 ≤ avlnode_height t := by
  cases t with
  | nil => simp [avlnode_height]
  | node k v l r ht =>
    have := h.1
    simp only [avlnode_height]
    omega

theorem rotate_child_nonnull (k v : Nat) (l r : avlnode) (h : Int)
    (hn : heightsNonneg (node k v l r h)) :
    (avlnode_height l > avlnode_height r + 1 → l ≠ nil)
      ∧ (avlnode_height r > avlnode_height l + 1 → r ≠ nil) := by
  have hl := height_ge_of_nonneg l hn.2.1
  have hr := height_ge_of_nonneg r hn.2.2
  constructor
  · rintro hgt rfl
    have h0 : avlnode_height nil = -1 := rfl
    omega
  · rintro hgt rfl
    have h0 : avlnode_height nil = -1 := rfl
    omega

theorem demote_nonneg (h : Int) : 0 ≤ demote h := by
  unfold demote
  split_ifs <;> omega

theorem heightsNonneg_update_height (t : avlnode) (h : heightsNonneg t) :
    heightsNonneg (avlnode_update_height t) := by
  cases t with
  | nil => exact h
  | node k v l r ht =>
    have hl := height_ge_of_nonneg l h.2.1
    have hr := height_ge_of_nonneg r h.2.2
    simp only [avlnode_update_height]
    split_ifs
    · exact ⟨by omega, h.2.1, h.2.2⟩
    · exact ⟨by omega, h.2.1, h.2.2⟩

theorem heightsNonneg_lrotation (t : avlnode) (h : heightsNonneg t) :
    heightsNonneg (avlnode_lrotation t) := by
  match t, h with
  | nil, h => exact h
  | node k v l nil ht, h => exact h
  | node k v l (node bk bv bl br bh) ht, h =>
    obtain ⟨-, hl, hb, hbl, hbr⟩ := h
    exact ⟨hb, ⟨demote_nonneg ht, hl, hbl⟩, hbr⟩

theorem heightsNonneg_rrotation (t : avlnode) (h : heightsNonneg t) :
    heightsNonneg (avlnode_rrotation t) := by
  match t, h with
  | nil, h => exact h
  | node k v nil r ht, h => exact h
  | node k v (node bk bv bl br bh) r ht, h =>
    obtain ⟨-, ⟨hb, hbl, hbr⟩, hr⟩ := h
    exact ⟨hb, hbl, demote_nonneg ht, hbr, hr⟩

theorem heightsNonneg_rotate (t : avlnode) (h : heightsNonneg t) :
    heightsNonneg (avlnode_rotate t) := by
  cases t with
  | nil => exact h
  | node k v l r ht =>
    simp only [avlnode_rotate]
    split_ifs with h1 h2
    · cases l with
      | nil => exact h
      | node lk lv ll lr lh =>
        simp only
        split_ifs
        · exact heightsNonneg_rrotation _ ⟨h.1, heightsNonneg_lrotation _ h.2.1, h.2.2⟩
        · exact heightsNonneg_rrotation _ h
    · cases r with
      | nil => exact h
      | node rk rv rl rr rh =>
        simp only
        split_ifs
        · exact heightsNonneg_lrotation _ ⟨h.1, h.2.1, heightsNonneg_rrotation _ h.2.2⟩
        · exact heightsNonneg_lrotation _ h
    · exact h

theorem heightsNonneg_rebalance (t : avlnode) (h : heightsNonneg t) :
    heightsNonneg (avlnode_rotate (avlnode_update_height t)) :=
  heightsNonneg_rotate _ (heightsNonneg_update_height _ h)

theorem heightsNonneg_fixup (old : Nat) (t : avlnode) (h : heightsNonneg t) :
    heightsNonneg (fixup old t) := by
  unfold fixup
  split_ifs
  · exact heightsNonneg_rebalance t h
  · exact h

theorem heightsNonneg_remove_min (t : avlnode) (h : heightsNonneg t) :
    heightsNonneg (avlnode_remove_min t).2 := by
  induction t with
  | nil => exact h
  | node k v l r ht ihl _ =>
    cases l with
    | nil => exact h.2.2
    | node lk lv ll lr lh =>
      simp only [avlnode_remove_min]
      exact heightsNonneg_rebalance _ ⟨h.1, ihl h.2.1, h.2.2⟩

theorem heightsNonneg_unlink (t : avlnode) (h : heightsNonneg t) :
    heightsNonneg (unlink t) := by
  match t, h with
  | nil, h => exact h
  | node _ _ nil nil _, _ => trivial
  | node _ _ (node lk lv ll lr lh) nil _, h => exact h.2.1
  | node _ _ nil (node rk rv rl rr rh) _, h => exact h.2.2
  | node k v (node lk lv ll lr lh) (node rk rv rl rr rh) ht, h =>
    have hm := heightsNonneg_remove_min (node rk rv rl rr rh) h.2.2
    cases hp : avlnode_remove_min (node rk rv rl rr rh) with
    | mk p1 p2 =>
      rw [hp] at hm
      cases p1 with
      | nil =>
        simp only [unlink, hp]
        exact ⟨h.1, h.2.1, hm⟩
      | node tk tv tl tr th =>
        simp only [unlink, hp]
        exact ⟨h.1, h.2.1, hm⟩

theorem heightsNonneg_insert (cmp : Nat → Nat → Int) (dup : Nat → Nat) (t : avlnode)
    (key value : Nat) (replace : Int) (h : heightsNonneg t) :
    heightsNonneg (_avltree_insert cmp dup t key value replace).2.1 := by
  induction t with
  | nil => exact ⟨le_refl 0, trivial, trivial⟩
  | node k v l r ht ihl ihr =>
    simp only [_avltree_insert]
    split_ifs
    · exact heightsNonneg_rebalance _ ⟨h.1, ihl h.2.1, h.2.2⟩
    · exact ⟨h.1, ihl h.2.1, h.2.2⟩
    · exact heightsNonneg_rebalance _ ⟨h.1, h.2.1, ihr h.2.2⟩
    · exact ⟨h.1, h.2.1, ihr h.2.2⟩
    · exact h
    · exact h

theorem heightsNonneg_remove (cmp : Nat → Nat → Int) (t : avlnode) (key old : Nat)
    (h : heightsNonneg t) : heightsNonneg (_avltree_remove cmp t key old).2.1 := by
  induction t with
  | nil => exact h
  | node k v l r ht ihl ihr =>
    simp only [_avltree_remove]
    split_ifs
    · exact heightsNonneg_fixup _ _ ⟨h.1, ihl h.2.1, h.2.2⟩
    · exact heightsNonneg_fixup _ _ ⟨h.1, h.2.1, ihr h.2.2⟩
    · exact heightsNonneg_fixup _ _ (heightsNonneg_unlink _ h)

theorem heightsNonneg_run (t : avltree) (h : heightsNonneg t.root) (ops : List Op) :
    heightsNonneg (run t ops).root := by
  induction ops generalizing t with
  | nil => exact h
  | cons op ops ih =>
    simp only [run, List.foldl_cons] at ih ⊢
    cases op with
    | insert key data overwrite =>
      exact ih _ (heightsNonneg_insert t.cmp t.dup t.root key data overwrite h)
    | erase key => exact ih _ (heightsNonneg_remove t.cmp t.root key NULL h)

theorem remove_min_returns_node (t : avlnode) (ht : t ≠ nil) :
    (avlnode_remove_min t).1 ≠ nil := by
  obtain ⟨k, v, h, e, -⟩ := remove_min_spec t ht
  rw [e]
  simp

/-! ## Search order as a property of the in-order traversal -/

theorem searchOrder_iff {cmp : Nat → Nat → Int} (hc : Consistent cmp) (t : avlnode) :
    searchOrder cmp t ↔ (keys t).Pairwise (fun a b => 0 < cmp a b) := by
  induction t with
  | nil => simp [searchOrder]
  | node k v l r h ihl ihr =>
    simp only [searchOrder, keys_node, List.pairwise_append, List.pairwise_cons, ihl, ihr,
      List.mem_cons]
    constructor
    · rintro ⟨h1, h2, h3, h4⟩
      refine ⟨h3, ⟨h2, h4⟩, ?_⟩
      intro a ha b hb
      rcases hb with rfl | hb
      · exact (hc.antisymm _ _).1 (h1 a ha)
      · exact hc.gt_trans ((hc.antisymm _ _).1 (h1 a ha)) (h2 b hb)
    · rintro ⟨h3, ⟨h2, h4⟩, h5⟩
      exact ⟨fun x hx => (hc.antisymm _ _).2 (h5 x hx k (Or.inl rfl)), h2, h3, h4⟩

theorem searchOrder_of_keys_eq {cmp : Nat → Nat → Int} (hc : Consistent cmp)
    {t t' : avlnode} (hk : keys t' = keys t) (h : searchOrder cmp t) : searchOrder cmp t' := by
  rw [searchOrder_iff hc] at h ⊢
  rw [hk]; exact h

theorem keys_rebalance (t : avlnode) : keys (avlnode_rotate (avlnode_update_height t)) = keys t := by
  simp [keys]

/-! ## Insertion -/

theorem insert_absent (cmp : Nat → Nat → Int) (dup : Nat → Nat) (t : avlnode)
    (key value : Nat) (replace : Int) (habs : ∀ e ∈ entries t, cmp e.1 key ≠ 0) :
    (_avltree_insert cmp dup t key value replace).1 = 0
      ∧ (_avltree_insert cmp dup t key value replace).2.2 = NULL
      ∧ ∃ l1 l2, entries t = l1 ++ l2
          ∧ entries (_avltree_insert cmp dup t key value replace).2.1
              = l1 ++ (dup key, value) :: l2 := by
  induction t with
  | nil => exact ⟨rfl, rfl, [], [], rfl, rfl⟩
  | node k v l r h ihl ihr =>
    have hne : cmp k key ≠ 0 := habs (k, v) (by simp)
    by_cases hlt : cmp k key < 0
    · obtain ⟨h1, h2, l1, l2, e1, e2⟩ := ihl (fun e he => habs e (by simp [he]))
      simp only [_avltree_insert, if_pos hne, if_pos hlt, if_pos h2]
      refine ⟨h1, h2, l1, l2 ++ (k, v) :: entries r, ?_, ?_⟩
      · simp [e1]
      · simp [e2]
    · obtain ⟨h1, h2, l1, l2, e1, e2⟩ := ihr (fun e he => habs e (by simp [he]))
      simp only [_avltree_insert, if_pos hne, if_neg hlt, if_pos h2]
      refine ⟨h1, h2, entries l ++ (k, v) :: l1, l2, ?_, ?_⟩
      · simp [e1]
      · simp [e2]

theorem keys_insert_mem (cmp : Nat → Nat → Int) (dup : Nat → Nat) (t : avlnode)
    (key value : Nat) (replace : Int) :
    ∀ x ∈ keys (_avltree_insert cmp dup t key value replace).2.1, x ∈ keys t ∨ x = dup key := by
  induction t with
  | nil => intro x hx; simpa [_avltree_insert] using hx
  | node k v l r h ihl ihr =>
    intro x hx
    simp only [_avltree_insert] at hx
    split_ifs at hx with h1 h2 h3 h4 h5
    all_goals
      first
      | rw [keys_rebalance] at hx
      | skip
    all_goals
      simp only [keys_node, List.mem_append, List.mem_cons] at hx ⊢
    · rcases hx with hx | hx | hx
      · rcases ihl x hx with h | h
        · exact Or.inl (Or.inl h)
        · exact Or.inr h
      · exact Or.inl (Or.inr (Or.inl hx))
      · exact Or.inl (Or.inr (Or.inr hx))
    · rcases hx with hx | hx | hx
      · rcases ihl x hx with h | h
        · exact Or.inl (Or.inl h)
        · exact Or.inr h
      · exact Or.inl (Or.inr (Or.inl hx))
      · exact Or.inl (Or.inr (Or.inr hx))
    · rcases hx with hx | hx | hx
      · exact Or.inl (Or.inl hx)
      · exact Or.inl (Or.inr (Or.inl hx))
      · rcases ihr x hx with h | h
        · exact Or.inl (Or.inr (Or.inr h))
        · exact Or.inr h
    · rcases hx with hx | hx | hx
      · exact Or.inl (Or.inl hx)
      · exact Or.inl (Or.inr (Or.inl hx))
      · rcases ihr x hx with h | h
        · exact Or.inl (Or.inr (Or.inr h))
        · exact Or.inr h
    · exact Or.inl hx
    · exact Or.inl hx

theorem searchOrder_insert {cmp : Nat → Nat → Int} (hc : Consistent cmp) (dup : Nat → Nat)
    (hdup : ∀ k, cmp (dup k) k = 0) (t : avlnode) (key value : Nat) (replace : Int)
    (h : searchOrder cmp t) :
    searchOrder cmp (_avltree_insert cmp dup t key value replace).2.1 := by
  induction t with
  | nil => simp [_avltree_insert, searchOrder]
  | node k v l r ht ihl ihr =>
    obtain ⟨h1, h2, h3, h4⟩ := h
    have hkd : cmp key (dup key) = 0 := hc.symm_eq (hdup key)
    by_cases hne : cmp k key ≠ 0
    · by_cases hlt : cmp k key < 0
      · have hs : searchOrder cmp
            (node k v (_avltree_insert cmp dup l key value replace).2.1 r ht) := by
          refine ⟨?_, h2, ihl h3, h4⟩
          intro x hx
          rcases keys_insert_mem cmp dup l key value replace x hx with hx | rfl
          · exact h1 x hx
          · exact hc.eq_right _ _ _ hlt hkd
        simp only [_avltree_insert, if_pos hne, if_pos hlt]
        split_ifs
        · exact searchOrder_of_keys_eq hc (keys_rebalance _) hs
        · exact hs
      · have hgt : 0 < cmp k key := by omega
        have hs : searchOrder cmp
            (node k v l (_avltree_insert cmp dup r key value replace).2.1 ht) := by
          refine ⟨h1, ?_, h3, ihr h4⟩
          intro x hx
          rcases keys_insert_mem cmp dup r key value replace x hx with hx | rfl
          · exact h2 x hx
          · have := hc.eq_left _ _ _ (hdup key) ((hc.antisymm _ _).2 hgt)
            exact (hc.antisymm _ _).1 this
        simp only [_avltree_insert, if_pos hne, if_neg hlt]
        split_ifs
        · exact searchOrder_of_keys_eq hc (keys_rebalance _) hs
        · exact hs
    · simp only [_avltree_insert, if_neg hne]
      split_ifs <;> exact ⟨h1, h2, h3, h4⟩

/-! ## Removal -/

theorem entries_remove_sublist (cmp : Nat → Nat → Int) (t : avlnode) (key old : Nat) :
    List.Sublist (entries (_avltree_remove cmp t key old).2.1) (entries t) := by
  induction t with
  | nil => simp [_avltree_remove]
  | node k v l r h ihl ihr =>
    simp only [_avltree_remove]
    split_ifs
    · simp only [entries_fixup, entries_node]
      exact List.Sublist.append ihl (List.Sublist.refl _)
    · simp only [entries_fixup, entries_node]
      exact List.Sublist.append (List.Sublist.refl _) ((List.Sublist.refl _).cons₂ _ |>.trans
        (List.Sublist.cons₂ _ ihr))
    · simp only [entries_fixup, entries_unlink, entries_node]
      exact List.Sublist.append (List.Sublist.refl _) (List.sublist_cons_self _ _)

theorem searchOrder_remove {cmp : Nat → Nat → Int} (hc : Consistent cmp) (t : avlnode)
    (key old : Nat) (h : searchOrder cmp t) :
    searchOrder cmp (_avltree_remove cmp t key old).2.1 := by
  rw [searchOrder_iff hc] at h ⊢
  exact h.sublist ((entries_remove_sublist cmp t key old).map Prod.fst)

theorem descend {cmp : Nat → Nat → Int} (hc : Consistent cmp) {k v : Nat} {l r : avlnode}
    {h : Int} {key k' v0 : Nat} (hs : searchOrder cmp (node k v l r h))
    (hmem : (k', v0) ∈ entries (node k v l r h)) (heq : cmp k' key = 0) :
    (cmp k key = 0 → (k', v0) = (k, v)) ∧ (cmp k key < 0 → (k', v0) ∈ entries l)
      ∧ (0 < cmp k key → (k', v0) ∈ entries r) := by
  obtain ⟨h1, h2, -, -⟩ := hs
  simp only [entries_node, List.mem_append, List.mem_cons] at hmem
  rcases hmem with hm | hm | hm
  · have hk : k' ∈ keys l := List.mem_map.2 ⟨(k', v0), hm, rfl⟩
    have hlt : cmp k key < 0 := hc.eq_right _ _ _ (h1 k' hk) heq
    exact ⟨fun h0 => by omega, fun _ => hm, fun h0 => by omega⟩
  · have hk : k' = k := congrArg Prod.fst hm
    subst hk
    exact ⟨fun _ => hm, fun h0 => by omega, fun h0 => by omega⟩
  · have hk : k' ∈ keys r := List.mem_map.2 ⟨(k', v0), hm, rfl⟩
    have hlt : cmp key k < 0 :=
      hc.eq_left _ _ _ (hc.symm_eq heq) ((hc.antisymm _ _).2 (h2 k' hk))
    have hgt : 0 < cmp k key := (hc.antisymm _ _).1 hlt
    exact ⟨fun h0 => by omega, fun h0 => by omega, fun _ => hm⟩

theorem insert_step_left (cmp : Nat → Nat → Int) (dup : Nat → Nat) (k v : Nat) (l r : avlnode)
    (h : Int) (key value : Nat) (replace : Int) (hne : cmp k key ≠ 0) (hlt : cmp k key < 0) :
    (_avltree_insert cmp dup (node k v l r h) key value replace).1
        = (_avltree_insert cmp dup l key value replace).1
      ∧ (_avltree_insert cmp dup (node k v l r h) key value replace).2.2
        = (_avltree_insert cmp dup l key value replace).2.2
      ∧ entries (_avltree_insert cmp dup (node k v l r h) key value replace).2.1
        = entries (_avltree_insert cmp dup l key value replace).2.1 ++ (k, v) :: entries r := by
  simp only [_avltree_insert, if_pos hne, if_pos hlt]
  split_ifs <;> simp

theorem insert_step_right (cmp : Nat → Nat → Int) (dup : Nat → Nat) (k v : Nat) (l r : avlnode)
    (h : Int) (key value : Nat) (replace : Int) (hne : cmp k key ≠ 0) (hlt : ¬ cmp k key < 0) :
    (_avltree_insert cmp dup (node k v l r h) key value replace).1
        = (_avltree_insert cmp dup r key value replace).1
      ∧ (_avltree_insert cmp dup (node k v l r h) key value replace).2.2
        = (_avltree_insert cmp dup r key value replace).2.2
      ∧ entries (_avltree_insert cmp dup (node k v l r h) key value replace).2.1
        = entries l ++ (k, v) :: entries (_avltree_insert cmp dup r key value replace).2.1 := by
  simp only [_avltree_insert, if_pos hne, if_neg hlt]
  split_ifs <;> simp

theorem insert_present {cmp : Nat → Nat → Int} (hc : Consistent cmp) (dup : Nat → Nat)
    (t : avlnode) (key value : Nat) (replace : Int) (k' v0 : Nat)
    (hs : searchOrder cmp t) (hmem : (k', v0) ∈ entries t) (heq : cmp k' key = 0) :
    (_avltree_insert cmp dup t key value replace).1 = (if replace ≠ 0 then 1 else 0)
      ∧ (_avltree_insert cmp dup t key value replace).2.2 = v0
      ∧ ∃ l1 l2, entries t = l1 ++ (k', v0) :: l2
          ∧ entries (_avltree_insert cmp dup t key value replace).2.1
              = l1 ++ (k', if replace ≠ 0 then value else v0) :: l2 := by
  induction t with
  | nil => simp at hmem
  | node k v l r h ihl ihr =>
    obtain ⟨d0, dl, dr⟩ := descend hc hs hmem heq
    obtain ⟨-, -, hsl, hsr⟩ := hs
    by_cases hne : cmp k key ≠ 0
    · by_cases hlt : cmp k key < 0
      · obtain ⟨e0, e1, l1, l2, e2, e3⟩ := ihl hsl (dl hlt)
        obtain ⟨s1, s2, s3⟩ := insert_step_left cmp dup k v l r h key value replace hne hlt
        rw [s1, s2, s3]
        exact ⟨e0, e1, l1, l2 ++ (k, v) :: entries r, by simp [e2], by simp [e3]⟩
      · obtain ⟨e0, e1, l1, l2, e2, e3⟩ := ihr hsr (dr (by omega))
        obtain ⟨s1, s2, s3⟩ := insert_step_right cmp dup k v l r h key value replace hne hlt
        rw [s1, s2, s3]
        exact ⟨e0, e1, entries l ++ (k, v) :: l1, l2, by simp [e2], by simp [e3]⟩
    · have h0 : cmp k key = 0 := by omega
      have hkv := d0 h0
      simp only [Prod.mk.injEq] at hkv
      obtain ⟨rfl, rfl⟩ := hkv
      simp only [_avltree_insert, if_neg hne]
      by_cases hr : replace ≠ 0
      · simp only [if_pos hr, true_and]
        exact ⟨entries l, entries r, rfl, rfl⟩
      · simp only [if_neg hr, true_and]
        exact ⟨entries l, entries r, rfl, rfl⟩

theorem run_cmp (t : avltree) (ops : List Op) : (run t ops).cmp = t.cmp := by
  induction ops generalizing t with
  | nil => rfl
  | cons op ops ih =>
    simp only [run, List.foldl_cons] at ih ⊢
    rw [ih]
    cases op <;> rfl

theorem run_dup (t : avltree) (ops : List Op) : (run t ops).dup = t.dup := by
  induction ops generalizing t with
  | nil => rfl
  | cons op ops ih =>
    simp only [run, List.foldl_cons] at ih ⊢
    rw [ih]
    cases op <;> rfl

theorem run_size (t : avltree) (ops : List Op) : (run t ops).size = t.size := by
  induction ops generalizing t with
  | nil => rfl
  | cons op ops ih =>
    simp only [run, List.foldl_cons] at ih ⊢
    rw [ih]
    cases op <;> rfl

theorem searchOrder_run (t : avltree) (hc : Consistent t.cmp)
    (hdup : ∀ k, t.cmp (t.dup k) k = 0) (h : searchOrder t.cmp t.root) (ops : List Op) :
    searchOrder t.cmp (run t ops).root := by
  induction ops generalizing t with
  | nil => exact h
  | cons op ops ih =>
    simp only [run, List.foldl_cons] at ih ⊢
    cases op with
    | insert key data overwrite =>
      exact ih (applyOp t (Op.insert key data overwrite)) hc hdup
        (searchOrder_insert hc t.dup hdup t.root key data overwrite h)
    | erase key =>
      exact ih (applyOp t (Op.erase key)) hc hdup (searchOrder_remove hc t.root key NULL h)

/-! ## Lookup -/

theorem cmp2_consistent : Consistent cmp2 where
  refl := by intro a; simp [cmp2]
  antisymm := by
    intro a b
    unfold cmp2
    split_ifs <;> omega
  trans := by
    intro a b c
    unfold cmp2
    split_ifs <;> omega
  eq_left := by
    intro a b c
    unfold cmp2
    split_ifs <;> omega
  eq_right := by
    intro a b c
    unfold cmp2
    split_ifs <;> omega

theorem cmp2_ne_one (a b : Nat) : cmp2 a b ≠ 1 := by
  unfold cmp2
  split_ifs <;> omega

theorem find_of_reaches (cmp : Nat → Nat → Int) (key : Nat) (t n : avlnode)
    (hr : Reaches cmp key t n) : _avltree_find cmp t key = _avltree_find cmp n key := by
  induction hr with
  | here t => rfl
  | left k v l r h n hlt _ ih => simp only [_avltree_find, if_pos hlt, ih]
  | right k v l r h n hnlt hgt _ ih => simp only [_avltree_find, if_neg hnlt, if_pos hgt, ih]

theorem find_present {cmp : Nat → Nat → Int} (hc : Consistent cmp)
    (hno1 : ∀ a b, cmp a b ≠ 1) (t : avlnode) (key k' v0 : Nat)
    (hs : searchOrder cmp t) (hmem : (k', v0) ∈ entries t) (heq : cmp k' key = 0) :
    ∃ l r h, _avltree_find cmp t key = node k' v0 l r h := by
  induction t with
  | nil => simp at hmem
  | node k v l r h ihl ihr =>
    obtain ⟨d0, dl, dr⟩ := descend hc hs hmem heq
    obtain ⟨-, -, hsl, hsr⟩ := hs
    by_cases hlt : cmp k key < 0
    · simp only [_avltree_find, if_pos hlt]
      exact ihl hsl (dl hlt)
    · by_cases hgt : cmp k key > 1
      · simp only [_avltree_find, if_neg hlt, if_pos hgt]
        exact ihr hsr (dr (by omega))
      · have h1 := hno1 k key
        have h0 : cmp k key = 0 := by omega
        have hkv := d0 h0
        simp only [Prod.mk.injEq] at hkv
        obtain ⟨rfl, rfl⟩ := hkv
        simp only [_avltree_find, if_neg hlt, if_neg hgt]
        exact ⟨l, r, h, rfl⟩

theorem find_absent (cmp : Nat → Nat → Int) (hno1 : ∀ a b, cmp a b ≠ 1) (t : avlnode)
    (key : Nat) (habs : ∀ e ∈ entries t, cmp e.1 key ≠ 0) :
    _avltree_find cmp t key = nil := by
  induction t with
  | nil => rfl
  | node k v l r h ihl ihr =>
    have hne : cmp k key ≠ 0 := habs (k, v) (by simp)
    have h1 := hno1 k key
    by_cases hlt : cmp k key < 0
    · simp only [_avltree_find, if_pos hlt]
      exact ihl (fun e he => habs e (by simp [he]))
    · have hgt : cmp k key > 1 := by omega
      simp only [_avltree_find, if_neg hlt, if_pos hgt]
      exact ihr (fun e he => habs e (by simp [he]))

/-! ## Destruction -/

theorem insert_present_nonnull_skeleton {cmp : Nat → Nat → Int} (hc : Consistent cmp)
    (dup : Nat → Nat) (t : avlnode) (key value : Nat) (replace : Int) (k' v0 : Nat)
    (hs : searchOrder cmp t) (hmem : (k', v0) ∈ entries t) (heq : cmp k' key = 0)
    (hv : v0 ≠ NULL) :
    skeleton (_avltree_insert cmp dup t key value replace).2.1 = skeleton t := by
  induction t with
  | nil => simp at hmem
  | node k v l r h ihl ihr =>
    obtain ⟨d0, dl, dr⟩ := descend hc hs hmem heq
    obtain ⟨-, -, hsl, hsr⟩ := hs
    by_cases hne : cmp k key ≠ 0
    · by_cases hlt : cmp k key < 0
      · have hold := (insert_present hc dup l key value replace k' v0 hsl (dl hlt) heq).2.1
        have hnn : ¬ (_avltree_insert cmp dup l key value replace).2.2 = NULL := by
          rw [hold]; exact hv
        simp only [_avltree_insert, if_pos hne, if_pos hlt, if_neg hnn, skeleton,
          ihl hsl (dl hlt)]
      · have hold :=
          (insert_present hc dup r key value replace k' v0 hsr (dr (by omega)) heq).2.1
        have hnn : ¬ (_avltree_insert cmp dup r key value replace).2.2 = NULL := by
          rw [hold]; exact hv
        simp only [_avltree_insert, if_pos hne, if_neg hlt, if_neg hnn, skeleton,
          ihr hsr (dr (by omega))]
    · simp only [_avltree_insert, if_neg hne]
      split_ifs <;> rfl

theorem def_cmp_near (p1 p2 : Nat) (h1 : p1 < 2 ^ 64) (h2 : p2 < 2 ^ 64)
    (hlo : -(2 ^ 31 : Int) ≤ (p1 : Int) - p2) (hhi : (p1 : Int) - p2 < 2 ^ 31) :
    def_cmp p1 p2 = (p1 : Int) - p2 := by
  unfold def_cmp
  norm_num at h1 h2 hlo hhi ⊢
  split_ifs <;> omega

/-! ## The claims -/

/-- C1 (balance invariant), evaluated on the code: with the consistent
comparator `cmp3` and non-null values, inserting 10, 30, 20 into a new tree
leaves the node 30 at the root with an empty left subtree (height -1) and a
right subtree of structural height 1, so the balance invariant does not hold
after these three calls. -/
theorem balance_lost_after_three_inserts :
    Consistent cmp3
    ∧ (run (avltree_new (some cmp3) none)
        [Op.insert 10 1 0, Op.insert 30 1 0, Op.insert 20 1 0]).root
      = node 30 1 nil (node 10 1 (node 20 1 nil nil 0) nil 0) 1
    ∧ realHeight nil = -1
    ∧ realHeight (node 10 1 (node 20 1 nil nil 0) nil 0) = 1
    ∧ balanced (run (avltree_new (some cmp3) none)
        [Op.insert 10 1 0, Op.insert 30 1 0, Op.insert 20 1 0]).root = false :=
  ⟨cmp3_consistent, by decide⟩

/-- C2 (insert/find round trip), evaluated on the code with the consistent
comparator `cmp3`: in the tree holding key 10 with value 100, inserting the
absent key 9 with value 90 and overwrite 1 stores the entry (9, 90), and
`avltree_find` for 9 then returns 100, the value of key 10, because
`cmp3 10 9 = 1`. -/
theorem find_after_insert_returns_other_value :
    Consistent cmp3
    ∧ cmp3 10 9 = 1
    ∧ entries (avltree_insert (run (avltree_new (some cmp3) none) [Op.insert 10 100 1])
        9 90 1).2.1.root = [(10, 100), (9, 90)]
    ∧ avltree_find (avltree_insert (run (avltree_new (some cmp3) none) [Op.insert 10 100 1])
        9 90 1).2.1 9 = 100 :=
  ⟨cmp3_consistent, by decide⟩

/-- C3 (erase/find round trip), evaluated on the code with the consistent
comparator `cmp3`: in the tree holding keys 10 and 9, erasing 9 returns 1 and
leaves only the entry of key 10, and then `avltree_find` for 9 returns 100
(the value of key 10) and `avltree_haskey` for 9 returns 1. -/
theorem find_after_erase_still_finds :
    Consistent cmp3
    ∧ (avltree_erase (run (avltree_new (some cmp3) none)
        [Op.insert 10 100 0, Op.insert 9 90 0]) 9).1 = 1
    ∧ entries (avltree_erase (run (avltree_new (some cmp3) none)
        [Op.insert 10 100 0, Op.insert 9 90 0]) 9).2.1.root = [(10, 100)]
    ∧ avltree_find (avltree_erase (run (avltree_new (some cmp3) none)
        [Op.insert 10 100 0, Op.insert 9 90 0]) 9).2.1 9 = 100
    ∧ avltree_haskey (avltree_erase (run (avltree_new (some cmp3) none)
        [Op.insert 10 100 0, Op.insert 9 90 0]) 9).2.1 9 = 1 :=
  ⟨cmp3_consistent, by decide⟩

/-- C4 (size consistency), evaluated on the code: after one insert into a new
tree the tree has one node and `avltree_size` returns 0; no public call ever
changes the `size` field. -/
theorem size_stays_zero :
    count (run (avltree_new (some cmp3) none) [Op.insert 1 7 0]).root = 1
    ∧ avltree_size (run (avltree_new (some cmp3) none) [Op.insert 1 7 0]) = 0
    ∧ ∀ (cmp : Option (Nat → Nat → Int)) (dup : Option (Nat → Nat)) (ops : List Op),
        avltree_size (run (avltree_new cmp dup) ops) = 0 := by
  refine ⟨by decide, by decide, ?_⟩
  intro cmp dup ops
  exact run_size (avltree_new cmp dup) ops

/-- C5 as stated fails: with the consistent comparator `cmp3`, after inserting
1 and then 2 the in-order traversal is 2, 1, and `cmp3 2 1 < 0` does not
hold. -/
theorem inorder_not_increasing :
    keys (run (avltree_new (some cmp3) none) [Op.insert 1 7 0, Op.insert 2 7 0]).root = [2, 1]
    ∧ ¬ List.Chain' (fun a b => cmp3 a b < 0)
        (keys (run (avltree_new (some cmp3) none) [Op.insert 1 7 0, Op.insert 2 7 0]).root) := by
  have hk : keys (run (avltree_new (some cmp3) none) [Op.insert 1 7 0, Op.insert 2 7 0]).root
      = [2, 1] := by decide
  refine ⟨hk, ?_⟩
  rw [hk]
  intro h
  have h21 : cmp3 2 1 < 0 := (List.chain'_cons.1 h).1
  revert h21
  decide

/-- C5, amended: after every sequence of inserts and erases on a tree made by
`avltree_new`, when the comparator in use is consistent and the duplication
callback returns a key comparing equal to its argument, the in-order traversal
lists the keys in strictly decreasing comparator order: `cmp a b > 0` for
every two consecutive keys `a`, `b`. -/
theorem inorder_strictly_decreasing (cmp : Option (Nat → Nat → Int))
    (dup : Option (Nat → Nat)) (hc : Consistent (avltree_new cmp dup).cmp)
    (hdup : ∀ k, (avltree_new cmp dup).cmp ((avltree_new cmp dup).dup k) k = 0)
    (ops : List Op) :
    List.Chain' (fun a b => 0 < (avltree_new cmp dup).cmp a b)
      (keys (run (avltree_new cmp dup) ops).root) := by
  have h := searchOrder_run (avltree_new cmp dup) hc hdup trivial ops
  rw [searchOrder_iff hc] at h
  exact List.Pairwise.chain' h

/-- Witness of C5 amended: `cmp3`, the default duplication, and the calls
insert 1, insert 2, erase 1, insert 3. -/
theorem inorder_strictly_decreasing_witness :
    Consistent (avltree_new (some cmp3) none).cmp
    ∧ (∀ k, (avltree_new (some cmp3) none).cmp ((avltree_new (some cmp3) none).dup k) k = 0)
    ∧ List.Chain' (fun a b => 0 < (avltree_new (some cmp3) none).cmp a b)
        (keys (run (avltree_new (some cmp3) none)
          [Op.insert 1 7 0, Op.insert 2 7 0, Op.erase 1, Op.insert 3 7 0]).root) :=
  ⟨cmp3_consistent, fun k => cmp3_consistent.refl k,
    inorder_strictly_decreasing (some cmp3) none cmp3_consistent
      (fun k => cmp3_consistent.refl k)
      [Op.insert 1 7 0, Op.insert 2 7 0, Op.erase 1, Op.insert 3 7 0]⟩

/-- C6 (overwrite semantics): in a tree in search order under a consistent
comparator that stores an entry `(k', v0)` with `k'` comparing equal to `k`,
`avltree_insert` of `k` with value `v1` reports `v0` as the old value; with
overwrite 0 the in-order list of entries is unchanged, and with a non-zero
overwrite it is the same list with that one entry replaced by `(k', v1)`.  So
the key, every other entry and the number of entries are unchanged. -/
theorem overwrite_semantics (tree : avltree) (hc : Consistent tree.cmp)
    (hs : searchOrder tree.cmp tree.root) (k v1 k' v0 : Nat)
    (hmem : (k', v0) ∈ entries tree.root) (heq : tree.cmp k' k = 0) :
    ((avltree_insert tree k v1 0).2.2 = v0
      ∧ entries (avltree_insert tree k v1 0).2.1.root = entries tree.root)
    ∧ ∀ overwrite : Int, overwrite ≠ 0 →
        (avltree_insert tree k v1 overwrite).2.2 = v0
        ∧ ∃ l1 l2, entries tree.root = l1 ++ (k', v0) :: l2
            ∧ entries (avltree_insert tree k v1 overwrite).2.1.root = l1 ++ (k', v1) :: l2 := by
  constructor
  · obtain ⟨-, e1, l1, l2, e2, e3⟩ :=
      insert_present hc tree.dup tree.root k v1 0 k' v0 hs hmem heq
    refine ⟨e1, ?_⟩
    simp only [avltree_insert]
    rw [e3, e2]
    simp
  · intro overwrite ho
    obtain ⟨-, e1, l1, l2, e2, e3⟩ :=
      insert_present hc tree.dup tree.root k v1 overwrite k' v0 hs hmem heq
    refine ⟨e1, l1, l2, e2, ?_⟩
    simp only [avltree_insert]
    rw [e3, if_pos ho]

/-- Witness of C6: the tree holding keys 10 and 9, re-inserting key 9. -/
theorem overwrite_semantics_witness :
    searchOrder cmp3 (run (avltree_new (some cmp3) none)
        [Op.insert 10 100 0, Op.insert 9 90 0]).root
    ∧ (9, 90) ∈ entries (run (avltree_new (some cmp3) none)
        [Op.insert 10 100 0, Op.insert 9 90 0]).root
    ∧ cmp3 9 9 = 0
    ∧ ((avltree_insert (run (avltree_new (some cmp3) none)
        [Op.insert 10 100 0, Op.insert 9 90 0]) 9 5 0).2.2 = 90
      ∧ entries (avltree_insert (run (avltree_new (some cmp3) none)
          [Op.insert 10 100 0, Op.insert 9 90 0]) 9 5 0).2.1.root
        = entries (run (avltree_new (some cmp3) none)
          [Op.insert 10 100 0, Op.insert 9 90 0]).root)
    ∧ (avltree_insert (run (avltree_new (some cmp3) none)
          [Op.insert 10 100 0, Op.insert 9 90 0]) 9 5 1).2.2 = 90 :=
  ⟨by decide, by decide, by decide,
    (overwrite_semantics (run (avltree_new (some cmp3) none)
      [Op.insert 10 100 0, Op.insert 9 90 0]) cmp3_consistent (by decide) 9 5 9 90
      (by decide) (by decide)).1,
    ((overwrite_semantics (run (avltree_new (some cmp3) none)
      [Op.insert 10 100 0, Op.insert 9 90 0]) cmp3_consistent (by decide) 9 5 9 90
      (by decide) (by decide)).2 1 (by decide)).1⟩

/-- C7 as stated fails: inserting the absent key 10 into a new tree creates
the node and returns 0. -/
theorem insert_of_new_key_returns_zero :
    (avltree_insert (avltree_new (some cmp3) none) 10 100 1).1 = 0
    ∧ entries (avltree_new (some cmp3) none).root = []
    ∧ entries (avltree_insert (avltree_new (some cmp3) none) 10 100 1).2.1.root
        = [(10, 100)] := by
  decide

/-- C7, amended: on a tree in search order under a consistent comparator,
`avltree_insert` returns 1 when a stored key compares equal to the key and
overwrite is non-zero (the value is replaced), and 0 otherwise: when no stored
key compares equal (a node is created) and when overwrite is 0. -/
theorem insert_result_flag (tree : avltree) (hc : Consistent tree.cmp)
    (hs : searchOrder tree.cmp tree.root) (k v : Nat) (overwrite : Int) :
    ((∃ e ∈ entries tree.root, tree.cmp e.1 k = 0) → overwrite ≠ 0 →
        (avltree_insert tree k v overwrite).1 = 1)
    ∧ ((∀ e ∈ entries tree.root, tree.cmp e.1 k ≠ 0) →
        (avltree_insert tree k v overwrite).1 = 0)
    ∧ (overwrite = 0 → (avltree_insert tree k v overwrite).1 = 0) := by
  refine ⟨?_, ?_, ?_⟩
  · rintro ⟨⟨k', v0⟩, hmem, heq⟩ ho
    have h := (insert_present hc tree.dup tree.root k v overwrite k' v0 hs hmem heq).1
    simpa [avltree_insert, ho] using h
  · intro habs
    exact (insert_absent tree.cmp tree.dup tree.root k v overwrite habs).1
  · intro ho
    by_cases hex : ∃ e ∈ entries tree.root, tree.cmp e.1 k = 0
    · obtain ⟨⟨k', v0⟩, hmem, heq⟩ := hex
      have h := (insert_present hc tree.dup tree.root k v overwrite k' v0 hs hmem heq).1
      simpa [avltree_insert, ho] using h
    · have habs : ∀ e ∈ entries tree.root, tree.cmp e.1 k ≠ 0 :=
        fun e he h0 => hex ⟨e, he, h0⟩
      exact (insert_absent tree.cmp tree.dup tree.root k v overwrite habs).1

/-- Witness of C7 amended: the tree holding key 10, inserting key 10 with
overwrite 1. -/
theorem insert_result_flag_witness :
    searchOrder cmp3 (run (avltree_new (some cmp3) none) [Op.insert 10 100 0]).root
    ∧ (∃ e ∈ entries (run (avltree_new (some cmp3) none) [Op.insert 10 100 0]).root,
        cmp3 e.1 10 = 0)
    ∧ (avltree_insert (run (avltree_new (some cmp3) none) [Op.insert 10 100 0]) 10 5 1).1 = 1 :=
  ⟨by decide, ⟨(10, 100), by decide, by decide⟩,
    (insert_result_flag (run (avltree_new (some cmp3) none) [Op.insert 10 100 0])
      cmp3_consistent (by decide) 10 5 1).1 ⟨(10, 100), by decide, by decide⟩ (by decide)⟩

/-- C8 (insert of an absent key): when no stored key compares equal to `k`,
`avltree_insert` reports the null old value and the in-order list of entries
afterwards is the previous list with the one entry `(dup k, v)` put in; every
previous entry is kept with its key and value.  This holds for every tree and
comparator, in particular for trees in search order under a consistent one. -/
theorem insert_absent_key (tree : avltree) (k v : Nat) (overwrite : Int)
    (habs : ∀ e ∈ entries tree.root, tree.cmp e.1 k ≠ 0) :
    (avltree_insert tree k v overwrite).2.2 = NULL
    ∧ ∃ l1 l2, entries tree.root = l1 ++ l2
        ∧ entries (avltree_insert tree k v overwrite).2.1.root = l1 ++ (tree.dup k, v) :: l2 :=
  (insert_absent tree.cmp tree.dup tree.root k v overwrite habs).2

/-- Witness of C8: the tree holding keys 10 and 30, inserting key 20. -/
theorem insert_absent_key_witness :
    (∀ e ∈ entries (run (avltree_new (some cmp3) none)
        [Op.insert 10 1 0, Op.insert 30 1 0]).root, cmp3 e.1 20 ≠ 0)
    ∧ (avltree_insert (run (avltree_new (some cmp3) none)
        [Op.insert 10 1 0, Op.insert 30 1 0]) 20 1 0).2.2 = NULL
    ∧ ∃ l1 l2, entries (run (avltree_new (some cmp3) none)
          [Op.insert 10 1 0, Op.insert 30 1 0]).root = l1 ++ l2
        ∧ entries (avltree_insert (run (avltree_new (some cmp3) none)
          [Op.insert 10 1 0, Op.insert 30 1 0]) 20 1 0).2.1.root
            = l1 ++ ((run (avltree_new (some cmp3) none)
                [Op.insert 10 1 0, Op.insert 30 1 0]).dup 20, 1) :: l2 :=
  ⟨by decide,
    insert_absent_key (run (avltree_new (some cmp3) none)
      [Op.insert 10 1 0, Op.insert 30 1 0]) 20 1 0 (by decide)⟩

/-- C10 (deletion of a node with two children keeps balance), evaluated on
the code with the consistent comparator `cmp3`: the tree built by inserting
5, 8, 3, 7 with non-null values is in search order, balanced, and has correct
cached heights; its root 5 has two children; erasing 5 leaves the node 8 at
the root with an empty left subtree and a right subtree of structural height
1, which is not balanced. -/
theorem erase_two_children_loses_balance :
    Consistent cmp3
    ∧ (run (avltree_new (some cmp3) none)
        [Op.insert 5 1 0, Op.insert 8 1 0, Op.insert 3 1 0, Op.insert 7 1 0]).root
      = node 5 1 (node 8 1 nil (node 7 1 nil nil 0) 1) (node 3 1 nil nil 0) 2
    ∧ searchOrder cmp3 (node 5 1 (node 8 1 nil (node 7 1 nil nil 0) 1) (node 3 1 nil nil 0) 2)
    ∧ balanced (node 5 1 (node 8 1 nil (node 7 1 nil nil 0) 1) (node 3 1 nil nil 0) 2) = true
    ∧ heightsCorrect (node 5 1 (node 8 1 nil (node 7 1 nil nil 0) 1) (node 3 1 nil nil 0) 2)
        = true
    ∧ valuesNonNull (node 5 1 (node 8 1 nil (node 7 1 nil nil 0) 1) (node 3 1 nil nil 0) 2)
        = true
    ∧ (avltree_erase (run (avltree_new (some cmp3) none)
        [Op.insert 5 1 0, Op.insert 8 1 0, Op.insert 3 1 0, Op.insert 7 1 0]) 5).2.1.root
      = node 8 1 nil (node 3 1 (node 7 1 nil nil 0) nil 0) 1
    ∧ balanced (node 8 1 nil (node 3 1 (node 7 1 nil nil 0) nil 0) 1) = false :=
  ⟨cmp3_consistent, by decide⟩

/-- C11 as stated fails: with the comparator `cmp3`, which orders 10 before 20
before 30, inserting 10, 20, 30 leaves 20 at the root with the leaf 30 as its
left child and the leaf 10 as its right child, not 10 on the left and 30 on
the right. -/
theorem scenario_children_are_mirrored :
    cmp3 10 20 < 0 ∧ cmp3 20 30 < 0 ∧ cmp3 10 30 < 0
    ∧ (run (avltree_new (some cmp3) none)
        [Op.insert 10 1 0, Op.insert 20 1 0, Op.insert 30 1 0]).root
      = node 20 1 (node 30 1 nil nil 0) (node 10 1 nil nil 0) 1
    ∧ ¬ ∃ v vl vr h hl hr, (run (avltree_new (some cmp3) none)
        [Op.insert 10 1 0, Op.insert 20 1 0, Op.insert 30 1 0]).root
      = node 20 v (node 10 vl nil nil hl) (node 30 vr nil nil hr) h := by
  have hroot : (run (avltree_new (some cmp3) none)
      [Op.insert 10 1 0, Op.insert 20 1 0, Op.insert 30 1 0]).root
      = node 20 1 (node 30 1 nil nil 0) (node 10 1 nil nil 0) 1 := by decide
  refine ⟨by decide, by decide, by decide, hroot, ?_⟩
  rintro ⟨v, vl, vr, h, hl, hr, he⟩
  rw [hroot] at he
  simp at he

/-- C11, amended: starting from an empty tree with a comparator that orders 10
before 20 before 30 (negative result when the first key is before the second),
inserting the keys 10, 20, 30 in that order produces a tree whose root key is
20, whose root's left child has key 30 and whose root's right child has key
10, both children being leaves. -/
theorem scenario_10_20_30 (cmp : Nat → Nat → Int) (v1 v2 v3 : Nat) (o1 o2 o3 : Int)
    (h12 : cmp 10 20 < 0) (h23 : cmp 20 30 < 0) (h13 : cmp 10 30 < 0) :
    (run (avltree_new (some cmp) none)
        [Op.insert 10 v1 o1, Op.insert 20 v2 o2, Op.insert 30 v3 o3]).root
      = node 20 v2 (node 30 v3 nil nil 0) (node 10 v1 nil nil 0) 1 := by
  have n12 : cmp 10 20 ≠ 0 := by omega
  have n23 : cmp 20 30 ≠ 0 := by omega
  have n13 : cmp 10 30 ≠ 0 := by omega
  simp [run, applyOp, avltree_insert, avltree_new, _avltree_insert, def_dup, h12, h23, h13,
    n12, n23, n13, avlnode_update_height, avlnode_height, avlnode_rotate, avlnode_rrotation,
    demote]

/-- Witness of C11 amended: the comparator `cmp3` and non-null values. -/
theorem scenario_10_20_30_witness :
    cmp3 10 20 < 0 ∧ cmp3 20 30 < 0 ∧ cmp3 10 30 < 0
    ∧ (run (avltree_new (some cmp3) none)
        [Op.insert 10 7 0, Op.insert 20 8 0, Op.insert 30 9 0]).root
      = node 20 8 (node 30 9 nil nil 0) (node 10 7 nil nil 0) 1 :=
  ⟨by decide, by decide, by decide,
    scenario_10_20_30 cmp3 7 8 9 0 0 0 (by decide) (by decide) (by decide)⟩

/-- C12 (cached height invariant), evaluated on the code with the consistent
comparator `cmp3` and non-null values.  After inserting 5, 8, 3, 9, 7 the tree
is balanced with correct cached heights; erasing 3 applies one right rotation
at the root, after which node 5 has the leaf 7 as left child and cached height
0 instead of 1, and the root 8 has cached height 1 over a subtree of height 2.
Likewise after inserting 10, 30, 20 node 10 has the leaf 20 as left child and
cached height 0. -/
theorem cached_height_wrong_after_rotation :
    Consistent cmp3
    ∧ heightsCorrect (run (avltree_new (some cmp3) none)
        [Op.insert 5 1 0, Op.insert 8 1 0, Op.insert 3 1 0, Op.insert 9 1 0,
          Op.insert 7 1 0]).root = true
    ∧ (run (avltree_new (some cmp3) none)
        [Op.insert 5 1 0, Op.insert 8 1 0, Op.insert 3 1 0, Op.insert 9 1 0,
          Op.insert 7 1 0, Op.erase 3]).root
      = node 8 1 (node 9 1 nil nil 0) (node 5 1 (node 7 1 nil nil 0) nil 0) 1
    ∧ avlnode_height (node 5 1 (node 7 1 nil nil 0) nil 0) = 0
    ∧ 1 + max (avlnode_height (node 7 1 nil nil 0)) (avlnode_height nil) = 1
    ∧ cachedHeightsLocal (run (avltree_new (some cmp3) none)
        [Op.insert 5 1 0, Op.insert 8 1 0, Op.insert 3 1 0, Op.insert 9 1 0,
          Op.insert 7 1 0, Op.erase 3]).root = false
    ∧ heightsCorrect (run (avltree_new (some cmp3) none)
        [Op.insert 5 1 0, Op.insert 8 1 0, Op.insert 3 1 0, Op.insert 9 1 0,
          Op.insert 7 1 0, Op.erase 3]).root = false
    ∧ (run (avltree_new (some cmp3) none)
        [Op.insert 10 1 0, Op.insert 30 1 0, Op.insert 20 1 0]).root
      = node 30 1 nil (node 10 1 (node 20 1 nil nil 0) nil 0) 1
    ∧ cachedHeightsLocal (run (avltree_new (some cmp3) none)
        [Op.insert 10 1 0, Op.insert 30 1 0, Op.insert 20 1 0]).root = false :=
  ⟨cmp3_consistent, by decide⟩

/-- C14 (double rotation in the left-right case), evaluated on the code: at
node 10 with cached height 2, whose left child 30 (cached height 1) has an
empty left subtree and the leaf 20 as right subtree, `avlnode_rotate` applies
the right rotation alone; the result differs from the left rotation of the
child followed by the right rotation.  The mirrored node 30 with right child
10 and its left leaf 20 gets the left rotation alone. -/
theorem rotate_skips_double_rotation :
    avlnode_height (node 30 1 nil (node 20 1 nil nil 0) 1) > avlnode_height nil + 1
    ∧ avlnode_height (node 20 1 nil nil 0) > avlnode_height nil
    ∧ avlnode_rotate (node 10 1 (node 30 1 nil (node 20 1 nil nil 0) 1) nil 2)
      = avlnode_rrotation (node 10 1 (node 30 1 nil (node 20 1 nil nil 0) 1) nil 2)
    ∧ avlnode_rotate (node 10 1 (node 30 1 nil (node 20 1 nil nil 0) 1) nil 2)
      = node 30 1 nil (node 10 1 (node 20 1 nil nil 0) nil 0) 1
    ∧ avlnode_rrotation
        (node 10 1 (avlnode_lrotation (node 30 1 nil (node 20 1 nil nil 0) 1)) nil 2)
      = node 20 1 (node 30 1 nil nil 0) (node 10 1 nil nil 0) 0
    ∧ avlnode_rotate (node 30 1 nil (node 10 1 (node 20 1 nil nil 0) nil 1) 2)
      = avlnode_lrotation (node 30 1 nil (node 10 1 (node 20 1 nil nil 0) nil 1) 2)
    ∧ avlnode_rotate (node 30 1 nil (node 10 1 (node 20 1 nil nil 0) nil 1) 2)
      ≠ avlnode_lrotation
          (node 30 1 nil (avlnode_rrotation (node 10 1 (node 20 1 nil nil 0) nil 1)) 2) := by
  decide

/-- C15 (lookup fall-through on comparator result 1): when the descent of the
lookup for `key` from the root reaches a node whose key compares to `key` with
result exactly 1, `avltree_find` returns that node's value and
`avltree_haskey` returns 1, although the result is not 0; at every node the
lookup goes left when the result is negative, right when it is greater than
1, and stops at the node otherwise. -/
theorem lookup_falls_through_on_one (tree : avltree) (key k v : Nat) (l r : avlnode) (h : Int)
    (hreach : Reaches tree.cmp key tree.root (node k v l r h)) (hone : tree.cmp k key = 1) :
    (avltree_find tree key = v ∧ avltree_haskey tree key = 1 ∧ tree.cmp k key ≠ 0)
    ∧ ∀ (k0 v0 : Nat) (l0 r0 : avlnode) (h0 : Int),
        (tree.cmp k0 key < 0 →
          _avltree_find tree.cmp (node k0 v0 l0 r0 h0) key = _avltree_find tree.cmp l0 key)
        ∧ (tree.cmp k0 key > 1 →
          _avltree_find tree.cmp (node k0 v0 l0 r0 h0) key = _avltree_find tree.cmp r0 key)
        ∧ (0 ≤ tree.cmp k0 key → tree.cmp k0 key ≤ 1 →
          _avltree_find tree.cmp (node k0 v0 l0 r0 h0) key = node k0 v0 l0 r0 h0) := by
  have hf : _avltree_find tree.cmp tree.root key = node k v l r h := by
    rw [find_of_reaches tree.cmp key tree.root _ hreach]
    have h1 : ¬ tree.cmp k key < 0 := by omega
    have h2 : ¬ tree.cmp k key > 1 := by omega
    simp only [_avltree_find, if_neg h1, if_neg h2]
  refine ⟨⟨?_, ?_, by omega⟩, ?_⟩
  · simp only [avltree_find, hf]
  · simp only [avltree_haskey, hf]
  · intro k0 v0 l0 r0 h0
    refine ⟨?_, ?_, ?_⟩
    · intro hlt
      simp only [_avltree_find, if_pos hlt]
    · intro hgt
      have hn : ¬ tree.cmp k0 key < 0 := by omega
      simp only [_avltree_find, if_neg hn, if_pos hgt]
    · intro h0le hle1
      have h1 : ¬ tree.cmp k0 key < 0 := by omega
      have h2 : ¬ tree.cmp k0 key > 1 := by omega
      simp only [_avltree_find, if_neg h1, if_neg h2]

/-- Witness of C15: in the tree built by inserting 10 and 20 with `cmp3` the
lookup of 19 goes left at the root 10 (result -1) and reaches node 20, where
the result is 1: the lookup returns the value of key 20. -/
theorem lookup_falls_through_on_one_witness :
    Reaches cmp3 19 (run (avltree_new (some cmp3) none)
        [Op.insert 10 100 0, Op.insert 20 200 0]).root (node 20 200 nil nil 0)
    ∧ cmp3 20 19 = 1
    ∧ avltree_find (run (avltree_new (some cmp3) none)
        [Op.insert 10 100 0, Op.insert 20 200 0]) 19 = 200
    ∧ avltree_haskey (run (avltree_new (some cmp3) none)
        [Op.insert 10 100 0, Op.insert 20 200 0]) 19 = 1 :=
  ⟨Reaches.left 10 100 (node 20 200 nil nil 0) nil 1 _ (by decide) (Reaches.here _),
    by decide,
    (lookup_falls_through_on_one (run (avltree_new (some cmp3) none)
      [Op.insert 10 100 0, Op.insert 20 200 0]) 19 20 200 nil nil 0
      (Reaches.left 10 100 (node 20 200 nil nil 0) nil 1 _ (by decide) (Reaches.here _))
      (by decide)).1.1,
    (lookup_falls_through_on_one (run (avltree_new (some cmp3) none)
      [Op.insert 10 100 0, Op.insert 20 200 0]) 19 20 200 nil nil 0
      (Reaches.left 10 100 (node 20 200 nil nil 0) nil 1 _ (by decide) (Reaches.here _))
      (by decide)).1.2.1⟩

/-- C16 (value replacement does no structural work), evaluated on the code
with the consistent comparator `cmp3`: the tree built by inserting 10, 30 and
then 20 with a null value holds key 20; inserting key 20 again, with overwrite
0 or 1, applies a left rotation at the root: node 10 becomes the root and the
shape and cached heights change. -/
theorem replacing_null_value_rotates :
    Consistent cmp3
    ∧ (run (avltree_new (some cmp3) none)
        [Op.insert 10 1 0, Op.insert 30 1 0, Op.insert 20 NULL 0]).root
      = node 30 1 nil (node 10 1 (node 20 NULL nil nil 0) nil 0) 1
    ∧ (avltree_insert (run (avltree_new (some cmp3) none)
        [Op.insert 10 1 0, Op.insert 30 1 0, Op.insert 20 NULL 0]) 20 5 0).2.1.root
      = node 10 1 (node 30 1 nil (node 20 NULL nil nil 0) 0) nil 1
    ∧ (avltree_insert (run (avltree_new (some cmp3) none)
        [Op.insert 10 1 0, Op.insert 30 1 0, Op.insert 20 NULL 0]) 20 5 1).2.1.root
      = node 10 1 (node 30 1 nil (node 20 5 nil nil 0) 0) nil 1
    ∧ skeleton (avltree_insert (run (avltree_new (some cmp3) none)
        [Op.insert 10 1 0, Op.insert 30 1 0, Op.insert 20 NULL 0]) 20 5 0).2.1.root
      ≠ skeleton (run (avltree_new (some cmp3) none)
        [Op.insert 10 1 0, Op.insert 30 1 0, Op.insert 20 NULL 0]).root
    ∧ skeleton (avltree_insert (run (avltree_new (some cmp3) none)
        [Op.insert 10 1 0, Op.insert 30 1 0, Op.insert 20 NULL 0]) 20 5 1).2.1.root
      ≠ skeleton (run (avltree_new (some cmp3) none)
        [Op.insert 10 1 0, Op.insert 30 1 0, Op.insert 20 NULL 0]).root :=
  ⟨cmp3_consistent, by decide⟩

/-- C17 (erase rebalances on every removal), evaluated on the code with the
consistent comparator `cmp3`: the trees built by inserting 5, 8, 3, 7 differ
only in the value stored with key 3 (1 or null).  Erasing 3 removes the node
in both; with the value 1 the root 5 is rebalanced and node 8 becomes the
root, with the null value no height is recomputed and no rotation is applied,
and the root stays 5 with an empty right subtree and a left subtree of height
1. -/
theorem erase_of_null_value_skips_rebalance :
    Consistent cmp3
    ∧ (run (avltree_new (some cmp3) none)
        [Op.insert 5 1 0, Op.insert 8 1 0, Op.insert 3 1 0, Op.insert 7 1 0]).root
      = node 5 1 (node 8 1 nil (node 7 1 nil nil 0) 1) (node 3 1 nil nil 0) 2
    ∧ (run (avltree_new (some cmp3) none)
        [Op.insert 5 1 0, Op.insert 8 1 0, Op.insert 3 NULL 0, Op.insert 7 1 0]).root
      = node 5 1 (node 8 1 nil (node 7 1 nil nil 0) 1) (node 3 NULL nil nil 0) 2
    ∧ (avltree_erase (run (avltree_new (some cmp3) none)
        [Op.insert 5 1 0, Op.insert 8 1 0, Op.insert 3 1 0, Op.insert 7 1 0]) 3).1 = 1
    ∧ (avltree_erase (run (avltree_new (some cmp3) none)
        [Op.insert 5 1 0, Op.insert 8 1 0, Op.insert 3 NULL 0, Op.insert 7 1 0]) 3).1 = 1
    ∧ (avltree_erase (run (avltree_new (some cmp3) none)
        [Op.insert 5 1 0, Op.insert 8 1 0, Op.insert 3 1 0, Op.insert 7 1 0]) 3).2.1.root
      = node 8 1 nil (node 5 1 (node 7 1 nil nil 0) nil 0) 1
    ∧ (avltree_erase (run (avltree_new (some cmp3) none)
        [Op.insert 5 1 0, Op.insert 8 1 0, Op.insert 3 NULL 0, Op.insert 7 1 0]) 3).2.1.root
      = node 5 1 (node 8 1 nil (node 7 1 nil nil 0) 1) nil 2
    ∧ skeleton (avltree_erase (run (avltree_new (some cmp3) none)
        [Op.insert 5 1 0, Op.insert 8 1 0, Op.insert 3 1 0, Op.insert 7 1 0]) 3).2.1.root
      ≠ skeleton (avltree_erase (run (avltree_new (some cmp3) none)
        [Op.insert 5 1 0, Op.insert 8 1 0, Op.insert 3 NULL 0, Op.insert 7 1 0]) 3).2.1.root :=
  ⟨cmp3_consistent, by decide⟩

/-- C19 (lookup with a comparator that never returns 1): when the comparator
is consistent and never answers exactly 1 and the tree is in the code's search
order, `avltree_find` returns the value stored with the key comparing equal to
`key` and `avltree_haskey` returns 1 if there is such a key, and they return
the null handle and 0 if there is none. -/
theorem lookup_correct_without_one (tree : avltree) (hc : Consistent tree.cmp)
    (hno1 : ∀ a b, tree.cmp a b ≠ 1) (hs : searchOrder tree.cmp tree.root) (key : Nat) :
    (∀ k' v, (k', v) ∈ entries tree.root → tree.cmp k' key = 0 →
        avltree_find tree key = v ∧ avltree_haskey tree key = 1)
    ∧ ((∀ e ∈ entries tree.root, tree.cmp e.1 key ≠ 0) →
        avltree_find tree key = NULL ∧ avltree_haskey tree key = 0)
    ∧ (avltree_haskey tree key ≠ 0 ↔ ∃ e ∈ entries tree.root, tree.cmp e.1 key = 0) := by
  have hpres : ∀ k' v, (k', v) ∈ entries tree.root → tree.cmp k' key = 0 →
      avltree_find tree key = v ∧ avltree_haskey tree key = 1 := by
    intro k' v hmem heq
    obtain ⟨l, r, h, hf⟩ := find_present hc hno1 tree.root key k' v hs hmem heq
    simp only [avltree_find, avltree_haskey, hf, and_self]
  have habs : (∀ e ∈ entries tree.root, tree.cmp e.1 key ≠ 0) →
      avltree_find tree key = NULL ∧ avltree_haskey tree key = 0 := by
    intro ha
    have hf := find_absent tree.cmp hno1 tree.root key ha
    simp only [avltree_find, avltree_haskey, hf, and_self]
  refine ⟨hpres, habs, ?_⟩
  constructor
  · intro hk
    by_contra hex
    have ha : ∀ e ∈ entries tree.root, tree.cmp e.1 key ≠ 0 := fun e he h0 => hex ⟨e, he, h0⟩
    exact hk (habs ha).2
  · rintro ⟨⟨k', v⟩, hmem, heq⟩
    rw [(hpres k' v hmem heq).2]
    decide

/-- Witness of C19: the comparator `cmp2` and the tree holding keys 10 and 9;
the lookup of 9 returns its value 90. -/
theorem lookup_correct_without_one_witness :
    Consistent cmp2
    ∧ (∀ a b, cmp2 a b ≠ 1)
    ∧ searchOrder cmp2 (run (avltree_new (some cmp2) none)
        [Op.insert 10 100 0, Op.insert 9 90 0]).root
    ∧ (9, 90) ∈ entries (run (avltree_new (some cmp2) none)
        [Op.insert 10 100 0, Op.insert 9 90 0]).root
    ∧ cmp2 9 9 = 0
    ∧ avltree_find (run (avltree_new (some cmp2) none)
        [Op.insert 10 100 0, Op.insert 9 90 0]) 9 = 90
    ∧ avltree_haskey (run (avltree_new (some cmp2) none)
        [Op.insert 10 100 0, Op.insert 9 90 0]) 9 = 1 :=
  ⟨cmp2_consistent, cmp2_ne_one, by decide, by decide, by decide,
    (lookup_correct_without_one (run (avltree_new (some cmp2) none)
      [Op.insert 10 100 0, Op.insert 9 90 0]) cmp2_consistent cmp2_ne_one (by decide) 9).1
      9 90 (by decide) (by decide)⟩

/-- C20 (default comparator), evaluated on the code: the 64-bit handles
4294967312 and 16 differ by 2^32 and `def_cmp` answers 0 for them although
they are different; the handles 2147483664 and 16 differ by 2^31 and `def_cmp`
is negative in both directions.  The tree made by `avltree_new` without a
comparator uses `def_cmp`. -/
theorem def_cmp_truncation :
    (4294967312 < 2 ^ 64 ∧ 2147483664 < 2 ^ 64)
    ∧ (def_cmp 4294967312 16 = 0 ∧ 4294967312 ≠ 16)
    ∧ (def_cmp 2147483664 16 < 0 ∧ ¬ def_cmp 16 2147483664 > 0)
    ∧ (avltree_new none none).cmp 4294967312 16 = 0 := by
  decide

end Avl
